import Mathlib

set_option linter.unusedSectionVars false
set_option linter.unusedVariables false

/-
Verification of the balanced-BST builder and pruned range filter
(`betterbst.py`), and of the checklist operations layered on top of them
(`minecraft_checklist.py`, `minecraft_block.py`).

The Ordered-Map substrate (`BinarySearchTree` with `__setitem__`,
`__contains__`, in-order iteration) and the `mergesort` utility live outside
the sources provided here; they are modelled from the specification's
interface description (see the doc comments marked "Modelled from the spec").
Everything else is a direct shallow embedding of the Python sources.
-/

namespace MinecraftGame

/-- A binary search tree node graph: `leaf` models Python's `None` child link,
`node left key item right` models a `TreeNode` with its key, item and the two
child links. -/
inductive Tree (K I : Type) where
  | leaf : Tree K I
  | node : Tree K I → K → I → Tree K I → Tree K I
deriving DecidableEq

namespace Tree

variable {K I : Type}

/-- Modelled from the spec: the Ordered-Map substrate's `insert(key, value)`
(`BinarySearchTree.__setitem__`, not among the provided sources): key-ordered
storage with unique keys where inserting an existing key overwrites it, and
the BST invariant (left keys < node key < right keys) is preserved. -/
def setItem [LinearOrder K] : Tree K I → K → I → Tree K I
  | leaf, k, v => node leaf k v leaf
  | node l key item r, k, v =>
    if k < key then node (setItem l k v) key item r
    else if key < k then node l key item (setItem r k v)
    else node l k v r

/-- Modelled from the spec: the substrate's in-order iteration, "in-order
iteration yielding (key, value) pairs ascending by key". -/
def inorder : Tree K I → List (K × I)
  | leaf => []
  | node l k v r => inorder l ++ (k, v) :: inorder r

/-- The keys of a tree, in in-order order. -/
def keys (t : Tree K I) : List K := t.inorder.map Prod.fst

/-- Height of a tree counted in levels: a single node has height 1, so that a
tree of n nodes built by the Builder has height ⌈log2(n+1)⌉ as the spec
states (`Nat.clog 2 (n+1)`). -/
def height : Tree K I → Nat
  | leaf => 0
  | node l _ _ r => 1 + max (height l) (height r)

/-- Number of nodes; the substrate tracks it incrementally (`__len__`). -/
def size : Tree K I → Nat
  | leaf => 0
  | node l _ _ r => size l + 1 + size r

/-- Modelled from the spec: the substrate's key lookup used by Python's
`key in self.checklist` (`lookup(key) -> value or not-found`), walking the
search path by key comparison. -/
def containsKey [LinearOrder K] : Tree K I → K → Bool
  | leaf, _ => false
  | node l key _ r, k =>
    if k < key then containsKey l k
    else if key < k then containsKey r k
    else true

/-- The BST ordering invariant of the spec's data model: for every node, all
keys in its left subtree compare strictly less than the node's key, and all
keys in its right subtree compare strictly greater. -/
def isBST [LinearOrder K] : Tree K I → Prop
  | leaf => True
  | node l k _ r =>
    (∀ x ∈ keys l, x < k) ∧ (∀ x ∈ keys r, k < x) ∧ isBST l ∧ isBST r

instance instDecidableIsBST [LinearOrder K] : (t : Tree K I) → Decidable (isBST t)
  | leaf => .isTrue trivial
  | node l k v r =>
    have : Decidable (isBST l) := instDecidableIsBST l
    have : Decidable (isBST r) := instDecidableIsBST r
    decidable_of_iff
      ((∀ x ∈ keys l, x < k) ∧ (∀ x ∈ keys r, k < x) ∧ isBST l ∧ isBST r)
      (by rw [isBST])

end Tree

namespace BetterBST

variable {K I : Type} [LinearOrder K]

/-- Modelled from the spec: `BetterBST.__sort_elements`, which delegates to
the external `mergesort(elements, lambda x: x[0])` — "a stable comparison
sort over a sequence, parameterized by a key-extraction function", total over
its input. -/
def sort_elements (elements : List (K × I)) : List (K × I) :=
  elements.mergeSort (fun a b => decide (a.1 ≤ b.1))

/-- Embedding of `BetterBST._build_subtree_aux`: on the index range
`[start, stop]` of the sorted list (`stop` renders Python's `end`, a Lean
keyword), insert the middle element, then recurse on `[start, mid-1]` and on
`[mid+1, stop]`.  Python's `//` on ints is floor division, which agrees with
Lean's `Int` division for the positive divisor 2.  An out-of-range index
(Python `IndexError`) is rendered as `none`. -/
def build_subtree_aux (elements : List (K × I)) (t : Tree K I) (start stop : Int) :
    Option (Tree K I) :=
  if start > stop then some t
  else
    match elements.get? ((start + stop) / 2).toNat with
    | none => none
    | some (key, item) =>
      match build_subtree_aux elements (t.setItem key item) start ((start + stop) / 2 - 1) with
      | none => none
      | some t' => build_subtree_aux elements t' ((start + stop) / 2 + 1) stop
termination_by (stop + 1 - start).toNat
decreasing_by all_goals omega

/-- Embedding of `BetterBST.__build_balanced_tree`: run the auxiliary build
on the full range `[0, len(elements) - 1]`, starting from the empty tree that
`super().__init__()` set up. -/
def build_balanced_tree (elements : List (K × I)) : Option (Tree K I) :=
  build_subtree_aux elements Tree.leaf 0 ((elements.length : Int) - 1)

/-- Embedding of `BetterBST.__init__`: sort the elements, then build the
balanced tree from the sorted list. -/
def betterBST_init (elements : List (K × I)) : Option (Tree K I) :=
  build_balanced_tree (sort_elements elements)

/-- Embedding of `BetterBST._filter_traverse_aux`: in-order traversal with
branch pruning, threading the `result` list (Python appends to the
accumulator `result : ArrayList`). -/
def filter_traverse_aux (f1 f2 : K → Bool) (current : Tree K I) (result : List (K × I)) :
    List (K × I) :=
  match current with
  | .leaf => result
  | .node left key item right =>
    let r1 := if f1 key then filter_traverse_aux f1 f2 left result else result
    let r2 := if f1 key && f2 key then r1 ++ [(key, item)] else r1
    if f2 key then filter_traverse_aux f1 f2 right r2 else r2

/-- Embedding of `BetterBST.filter_keys`: start the pruned traversal at the
root with an empty result list. -/
def filter_keys (t : Tree K I) (f1 f2 : K → Bool) : List (K × I) :=
  filter_traverse_aux f1 f2 t []

/-- Ghost instrumentation of `_build_subtree_aux`: the sequence of keys
passed to `self[key] = item`, in call order.  Used to state the spec's claim
about the Builder's insertion order. -/
def build_insert_order (elements : List (K × I)) (start stop : Int) : Option (List K) :=
  if start > stop then some []
  else
    match elements.get? ((start + stop) / 2).toNat with
    | none => none
    | some (key, _) =>
      match build_insert_order elements start ((start + stop) / 2 - 1) with
      | none => none
      | some ol =>
        match build_insert_order elements ((start + stop) / 2 + 1) stop with
        | none => none
        | some or' => some (key :: ol ++ or')
termination_by (stop + 1 - start).toNat
decreasing_by all_goals omega

/-- The variant of `_build_subtree_aux` described by the spec's commutation
remark: identical except that the two recursive calls are swapped, building
the right sub-range `[mid+1, stop]` before the left sub-range
`[start, mid-1]`. -/
def build_subtree_aux_swapped (elements : List (K × I)) (t : Tree K I) (start stop : Int) :
    Option (Tree K I) :=
  if start > stop then some t
  else
    match elements.get? ((start + stop) / 2).toNat with
    | none => none
    | some (key, item) =>
      match build_subtree_aux_swapped elements (t.setItem key item)
          ((start + stop) / 2 + 1) stop with
      | none => none
      | some t' => build_subtree_aux_swapped elements t' start ((start + stop) / 2 - 1)
termination_by (stop + 1 - start).toNat
decreasing_by all_goals omega

/-- Recursive description of the tree the Builder produces from a sorted
list: root the sub-list at its lower-median index `(n-1)/2` and build the two
halves on each side.  This is the specification-level view of
`_build_subtree_aux`; the bridge lemmas below prove the sequential-insertion
code realises it. -/
def midBuild : List (K × I) → Tree K I
  | [] => Tree.leaf
  | x :: xs =>
    let m := ((x :: xs : List (K × I)).length - 1) / 2
    Tree.node (midBuild ((x :: xs).take m))
      ((x :: xs).getD m x).1 ((x :: xs).getD m x).2
      (midBuild ((x :: xs).drop (m + 1)))
termination_by l => l.length
decreasing_by
  all_goals simp [List.length_take]
  all_goals omega

/-! ### Elementary facts about the traversal accumulator -/

theorem filter_traverse_aux_eq (f1 f2 : K → Bool) (t : Tree K I) (acc : List (K × I)) :
    filter_traverse_aux f1 f2 t acc = acc ++ filter_keys t f1 f2 := by
  induction t generalizing acc with
  | leaf => simp [filter_traverse_aux, filter_keys]
  | node l k v r ihl ihr =>
    have hn : ∀ a : List (K × I), filter_traverse_aux f1 f2 (Tree.node l k v r) a
        = a ++ ((if f1 k then filter_keys l f1 f2 else [])
            ++ (if f1 k && f2 k then [(k, v)] else [])
            ++ (if f2 k then filter_keys r f1 f2 else [])) := by
      intro a
      simp only [filter_traverse_aux]
      cases hf1 : f1 k <;> cases hf2 : f2 k <;>
        simp [ihl, ihr, List.append_assoc]
    rw [hn acc]
    have : filter_keys (Tree.node l k v r) f1 f2
        = filter_traverse_aux f1 f2 (Tree.node l k v r) [] := rfl
    rw [this, hn [], List.nil_append]

/-- The result of the pruned traversal at a node, as the three in-order
pieces: the (possibly pruned) left contribution, the node itself when both
predicates accept it, and the (possibly pruned) right contribution. -/
theorem filter_keys_node (f1 f2 : K → Bool) (l : Tree K I) (k : K) (v : I) (r : Tree K I) :
    filter_keys (Tree.node l k v r) f1 f2
      = (if f1 k then filter_keys l f1 f2 else [])
        ++ (if f1 k && f2 k then [(k, v)] else [])
        ++ (if f2 k then filter_keys r f1 f2 else []) := by
  have : filter_keys (Tree.node l k v r) f1 f2
      = filter_traverse_aux f1 f2 (Tree.node l k v r) [] := rfl
  rw [this]
  simp only [filter_traverse_aux]
  cases hf1 : f1 k <;> cases hf2 : f2 k <;>
    simp [filter_traverse_aux_eq, List.append_assoc]

/-- Whatever the predicates are, the traversal emits a subsequence of the
in-order traversal: pruning and the node test only drop entries. -/
theorem filter_keys_sublist_inorder (f1 f2 : K → Bool) (t : Tree K I) :
    (filter_keys t f1 f2).Sublist t.inorder := by
  induction t with
  | leaf => simp [filter_keys, filter_traverse_aux, Tree.inorder]
  | node l k v r ihl ihr =>
    rw [filter_keys_node, Tree.inorder]
    have h1 : (if f1 k then filter_keys l f1 f2 else []).Sublist l.inorder := by
      split
      · exact ihl
      · exact List.nil_sublist _
    have h2 : (if f1 k && f2 k then [(k, v)] else []).Sublist [(k, v)] := by
      split
      · exact List.Sublist.refl _
      · exact List.nil_sublist _
    have h3 : (if f2 k then filter_keys r f1 f2 else []).Sublist r.inorder := by
      split
      · exact ihr
      · exact List.nil_sublist _
    have : (k, v) :: r.inorder = [(k, v)] ++ r.inorder := rfl
    rw [this]
    simpa [List.append_assoc] using h1.append (h2.append h3)

/-! ### The BST invariant and sortedness of the in-order traversal -/

theorem keys_node (l : Tree K I) (k : K) (v : I) (r : Tree K I) :
    (Tree.node l k v r).keys = l.keys ++ k :: r.keys := by
  simp [Tree.keys, Tree.inorder]

theorem sorted_keys_of_isBST {t : Tree K I} (h : t.isBST) :
    t.keys.Sorted (· < ·) := by
  induction t with
  | leaf => simp [Tree.keys, Tree.inorder]
  | node l k v r ihl ihr =>
    obtain ⟨hl, hr, bl, br⟩ := h
    rw [keys_node]
    refine List.pairwise_append.2 ⟨ihl bl, List.pairwise_cons.2 ⟨hr, ihr br⟩, ?_⟩
    intro a ha b hb
    rcases List.mem_cons.1 hb with rfl | hb
    · exact hl a ha
    · exact (hl a ha).trans (hr b hb)

theorem isBST_of_sorted_keys {t : Tree K I} (h : t.keys.Sorted (· < ·)) :
    t.isBST := by
  induction t with
  | leaf => trivial
  | node l k v r ihl ihr =>
    rw [keys_node] at h
    obtain ⟨h1, h2, h3⟩ := List.pairwise_append.1 h
    obtain ⟨h4, h5⟩ := List.pairwise_cons.1 h2
    exact ⟨fun x hx => h3 x hx k (List.mem_cons_self _ _), h4, ihl h1, ihr h5⟩

/-! ### Filter correctness against the brute-force in-order filter -/

/-- Core filter correctness: on any tree satisfying the BST invariant, with a
monotone non-decreasing lower predicate and a monotone non-increasing upper
predicate, the pruned traversal returns exactly the brute-force filter of the
in-order traversal. -/
theorem filter_keys_eq_filter_inorder {t : Tree K I} {f1 f2 : K → Bool} (hbst : t.isBST)
    (h1 : ∀ a b : K, a ≤ b → f1 a = true → f1 b = true)
    (h2 : ∀ a b : K, a ≤ b → f2 b = true → f2 a = true) :
    filter_keys t f1 f2 = t.inorder.filter (fun p => f1 p.1 && f2 p.1) := by
  induction t with
  | leaf => simp [filter_keys, filter_traverse_aux, Tree.inorder]
  | node l k v r ihl ihr =>
    obtain ⟨hl, hr, bl, br⟩ := hbst
    have Hl : f1 k = false → l.inorder.filter (fun p => f1 p.1 && f2 p.1) = [] := by
      intro hf
      refine List.filter_eq_nil_iff.2 (fun p hp => ?_)
      have hpk : p.1 < k := hl p.1 (List.mem_map_of_mem Prod.fst hp)
      intro hc
      have hc' : f1 p.1 = true ∧ f2 p.1 = true := by simpa using hc
      have hc1 : f1 p.1 = true := hc'.1
      have := h1 p.1 k hpk.le hc1
      simp [hf] at this
    have Hr : f2 k = false → r.inorder.filter (fun p => f1 p.1 && f2 p.1) = [] := by
      intro hf
      refine List.filter_eq_nil_iff.2 (fun p hp => ?_)
      have hpk : k < p.1 := hr p.1 (List.mem_map_of_mem Prod.fst hp)
      intro hc
      have hc' : f1 p.1 = true ∧ f2 p.1 = true := by simpa using hc
      have hc2 : f2 p.1 = true := hc'.2
      have := h2 k p.1 hpk.le hc2
      simp [hf] at this
    rw [filter_keys_node, Tree.inorder, List.filter_append, List.filter_cons]
    cases hf1 : f1 k <;> cases hf2 : f2 k <;>
      simp [hf1, hf2, ihl bl, ihr br, Hl, Hr]

/-- With arbitrary (possibly non-monotone) predicates, every entry the
traversal emits still passes both predicate tests. -/
theorem pred_of_mem_filter_keys {t : Tree K I} {f1 f2 : K → Bool} {p : K × I}
    (hp : p ∈ filter_keys t f1 f2) : f1 p.1 = true ∧ f2 p.1 = true := by
  induction t with
  | leaf => simp [filter_keys, filter_traverse_aux] at hp
  | node l k v r ihl ihr =>
    rw [filter_keys_node] at hp
    simp only [List.mem_append] at hp
    rcases hp with (h | h) | h
    · by_cases hf : f1 k = true
      · rw [if_pos hf] at h
        exact ihl h
      · rw [if_neg hf] at h
        simp at h
    · by_cases hf : (f1 k && f2 k) = true
      · rw [if_pos hf] at h
        have hpe : p = (k, v) := List.mem_singleton.1 h
        subst hpe
        simpa using hf
      · rw [if_neg hf] at h
        simp at h
    · by_cases hf : f2 k = true
      · rw [if_pos hf] at h
        exact ihr h
      · rw [if_neg hf] at h
        simp at h

/-! ### The specification-level mid-first build -/

theorem midBuild_cons (x : K × I) (xs : List (K × I)) :
    midBuild (x :: xs) = Tree.node (midBuild ((x :: xs).take (xs.length / 2)))
      ((x :: xs).getD (xs.length / 2) x).1 ((x :: xs).getD (xs.length / 2) x).2
      (midBuild ((x :: xs).drop (xs.length / 2 + 1))) := by
  rw [midBuild]
  simp only [List.length_cons, Nat.add_sub_cancel]

theorem inorder_midBuild : ∀ l : List (K × I), (midBuild l).inorder = l
  | [] => by simp [midBuild, Tree.inorder]
  | x :: xs => by
    have hm : xs.length / 2 < (x :: xs).length := by
      simp only [List.length_cons]
      omega
    rw [midBuild_cons, Tree.inorder,
      inorder_midBuild ((x :: xs).take (xs.length / 2)),
      inorder_midBuild ((x :: xs).drop (xs.length / 2 + 1)),
      List.getD_eq_getElem _ _ hm]
    rw [← List.drop_eq_getElem_cons hm, List.take_append_drop]
termination_by l => l.length
decreasing_by
  · simp only [List.length_take, List.length_cons]
    omega
  · simp only [List.length_drop, List.length_cons]
    omega

theorem keys_midBuild (l : List (K × I)) : (midBuild l).keys = l.map Prod.fst := by
  rw [Tree.keys, inorder_midBuild]

theorem isBST_midBuild {l : List (K × I)} (h : (l.map Prod.fst).Sorted (· < ·)) :
    (midBuild l).isBST :=
  isBST_of_sorted_keys (by rw [keys_midBuild]; exact h)

theorem height_midBuild : ∀ l : List (K × I), (midBuild l).height = Nat.clog 2 (l.length + 1)
  | [] => by simp [midBuild, Tree.height]
  | x :: xs => by
    rw [midBuild_cons, Tree.height,
      height_midBuild ((x :: xs).take (xs.length / 2)),
      height_midBuild ((x :: xs).drop (xs.length / 2 + 1))]
    simp only [List.length_take, List.length_drop, List.length_cons]
    have h1 : min (xs.length / 2) (xs.length + 1) = xs.length / 2 := by omega
    have h2 : xs.length + 1 - (xs.length / 2 + 1) = xs.length - xs.length / 2 := by omega
    rw [h1, h2]
    have hmax : Nat.clog 2 (xs.length / 2 + 1) ≤ Nat.clog 2 (xs.length - xs.length / 2 + 1) :=
      Nat.clog_mono_right 2 (by omega)
    rw [max_eq_right hmax]
    have harg : (xs.length + 1 + 1 + 2 - 1) / 2 = xs.length - xs.length / 2 + 1 := by omega
    have hrec : Nat.clog 2 (xs.length + 1 + 1)
        = Nat.clog 2 (xs.length - xs.length / 2 + 1) + 1 := by
      rw [Nat.clog_of_two_le (by norm_num) (by omega), harg]
    rw [hrec]
    omega
termination_by l => l.length
decreasing_by
  · simp only [List.length_take, List.length_cons]
    omega
  · simp only [List.length_drop, List.length_cons]
    omega

/-! ### Unfolding lemmas for the index-range recursion -/

theorem setItem_lt {L R : Tree K I} {k k' : K} {v : I} (v' : I) (h : k' < k) :
    (Tree.node L k v R).setItem k' v' = Tree.node (L.setItem k' v') k v R := by
  simp [Tree.setItem, h]

theorem setItem_gt {L R : Tree K I} {k k' : K} {v : I} (v' : I) (h : k < k') :
    (Tree.node L k v R).setItem k' v' = Tree.node L k v (R.setItem k' v') := by
  simp [Tree.setItem, h, lt_asymm h]

theorem build_subtree_aux_base (elements : List (K × I)) (t : Tree K I) {start stop : Int}
    (hse : start > stop) : build_subtree_aux elements t start stop = some t := by
  rw [build_subtree_aux.eq_def, if_pos hse]

theorem build_subtree_aux_oob (elements : List (K × I)) (t : Tree K I) {start stop : Int}
    (hse : ¬ start > stop)
    (hget : elements.get? ((start + stop) / 2).toNat = none) :
    build_subtree_aux elements t start stop = none := by
  rw [build_subtree_aux.eq_def, if_neg hse, hget]

theorem build_subtree_aux_step (elements : List (K × I)) (t : Tree K I) {start stop : Int}
    (hse : ¬ start > stop) {key : K} {item : I}
    (hget : elements.get? ((start + stop) / 2).toNat = some (key, item)) :
    build_subtree_aux elements t start stop
      = (build_subtree_aux elements (t.setItem key item) start ((start + stop) / 2 - 1)).bind
          (fun t' => build_subtree_aux elements t' ((start + stop) / 2 + 1) stop) := by
  rw [build_subtree_aux.eq_def, if_neg hse, hget]
  show (match build_subtree_aux elements (t.setItem key item) start ((start + stop) / 2 - 1) with
        | none => none
        | some t' => build_subtree_aux elements t' ((start + stop) / 2 + 1) stop) = _
  cases build_subtree_aux elements (t.setItem key item) start ((start + stop) / 2 - 1) <;> rfl

theorem build_subtree_aux_swapped_base (elements : List (K × I)) (t : Tree K I)
    {start stop : Int} (hse : start > stop) :
    build_subtree_aux_swapped elements t start stop = some t := by
  rw [build_subtree_aux_swapped.eq_def, if_pos hse]

theorem build_subtree_aux_swapped_oob (elements : List (K × I)) (t : Tree K I) {start stop : Int}
    (hse : ¬ start > stop)
    (hget : elements.get? ((start + stop) / 2).toNat = none) :
    build_subtree_aux_swapped elements t start stop = none := by
  rw [build_subtree_aux_swapped.eq_def, if_neg hse, hget]

theorem build_subtree_aux_swapped_step (elements : List (K × I)) (t : Tree K I)
    {start stop : Int} (hse : ¬ start > stop) {key : K} {item : I}
    (hget : elements.get? ((start + stop) / 2).toNat = some (key, item)) :
    build_subtree_aux_swapped elements t start stop
      = (build_subtree_aux_swapped elements (t.setItem key item)
            ((start + stop) / 2 + 1) stop).bind
          (fun t' => build_subtree_aux_swapped elements t' start ((start + stop) / 2 - 1)) := by
  rw [build_subtree_aux_swapped.eq_def, if_neg hse, hget]
  show (match build_subtree_aux_swapped elements (t.setItem key item)
          ((start + stop) / 2 + 1) stop with
        | none => none
        | some t' => build_subtree_aux_swapped elements t' start ((start + stop) / 2 - 1)) = _
  cases build_subtree_aux_swapped elements (t.setItem key item) ((start + stop) / 2 + 1) stop
    <;> rfl

/-! ### Frame lemmas: a batch of one-sided inserts only touches one subtree -/

/-- Running a Builder range whose keys are all smaller than `k` against
`node L k v R` only rebuilds the left subtree. -/
theorem build_frame_lt (elements : List (K × I)) (R : Tree K I) (k : K) (v : I) :
    ∀ (L : Tree K I) (start stop : Int), 0 ≤ start →
      (∀ i : Nat, start ≤ (i : Int) → (i : Int) ≤ stop →
        ∀ p ∈ elements.get? i, p.1 < k) →
      build_subtree_aux elements (Tree.node L k v R) start stop
        = (build_subtree_aux elements L start stop).map (fun L' => Tree.node L' k v R) := by
  intro L start stop hs h
  by_cases hse : start > stop
  · rw [build_subtree_aux_base _ _ hse, build_subtree_aux_base _ _ hse]
    rfl
  · cases hg : elements.get? ((start + stop) / 2).toNat with
    | none =>
      rw [build_subtree_aux_oob _ _ hse hg, build_subtree_aux_oob _ _ hse hg]
      rfl
    | some p =>
      obtain ⟨key, item⟩ := p
      have hklt : key < k := by
        refine h ((start + stop) / 2).toNat (by omega) (by omega) (key, item) ?_
        rw [hg]
        rfl
      rw [build_subtree_aux_step _ _ hse hg, build_subtree_aux_step _ _ hse hg,
        setItem_lt item hklt]
      rw [build_frame_lt elements R k v (L.setItem key item) start ((start + stop) / 2 - 1) hs
        (fun i h1 h2 p hp => h i h1 (by omega) p hp)]
      cases hL : build_subtree_aux elements (L.setItem key item) start ((start + stop) / 2 - 1)
        with
      | none => rfl
      | some L' =>
        simp only [Option.map_some', Option.some_bind]
        exact build_frame_lt elements R k v L' ((start + stop) / 2 + 1) stop (by omega)
          (fun i h1 h2 p hp => h i (by omega) h2 p hp)
termination_by L start stop => (stop + 1 - start).toNat
decreasing_by all_goals omega

/-- Running a Builder range whose keys are all greater than `k` against
`node L k v R` only rebuilds the right subtree. -/
theorem build_frame_gt (elements : List (K × I)) (L : Tree K I) (k : K) (v : I) :
    ∀ (R : Tree K I) (start stop : Int), 0 ≤ start →
      (∀ i : Nat, start ≤ (i : Int) → (i : Int) ≤ stop →
        ∀ p ∈ elements.get? i, k < p.1) →
      build_subtree_aux elements (Tree.node L k v R) start stop
        = (build_subtree_aux elements R start stop).map (fun R' => Tree.node L k v R') := by
  intro R start stop hs h
  by_cases hse : start > stop
  · rw [build_subtree_aux_base _ _ hse, build_subtree_aux_base _ _ hse]
    rfl
  · cases hg : elements.get? ((start + stop) / 2).toNat with
    | none =>
      rw [build_subtree_aux_oob _ _ hse hg, build_subtree_aux_oob _ _ hse hg]
      rfl
    | some p =>
      obtain ⟨key, item⟩ := p
      have hkgt : k < key := by
        refine h ((start + stop) / 2).toNat (by omega) (by omega) (key, item) ?_
        rw [hg]
        rfl
      rw [build_subtree_aux_step _ _ hse hg, build_subtree_aux_step _ _ hse hg,
        setItem_gt item hkgt]
      rw [build_frame_gt elements L k v (R.setItem key item) start ((start + stop) / 2 - 1) hs
        (fun i h1 h2 p hp => h i h1 (by omega) p hp)]
      cases hR : build_subtree_aux elements (R.setItem key item) start ((start + stop) / 2 - 1)
        with
      | none => rfl
      | some R' =>
        simp only [Option.map_some', Option.some_bind]
        exact build_frame_gt elements L k v R' ((start + stop) / 2 + 1) stop (by omega)
          (fun i h1 h2 p hp => h i (by omega) h2 p hp)
termination_by R start stop => (stop + 1 - start).toNat
decreasing_by all_goals omega

/-! ### Bridge: the sequential-insertion Builder realises the mid-first tree -/

theorem midBuild_ne_nil (l : List (K × I)) (h : l ≠ []) (d : K × I) :
    midBuild l = Tree.node (midBuild (l.take ((l.length - 1) / 2)))
      (l.getD ((l.length - 1) / 2) d).1 (l.getD ((l.length - 1) / 2) d).2
      (midBuild (l.drop ((l.length - 1) / 2 + 1))) := by
  obtain ⟨y, ys, rfl⟩ := List.exists_cons_of_ne_nil h
  rw [midBuild_cons]
  have hm : ys.length / 2 = ((y :: ys).length - 1) / 2 := by
    simp only [List.length_cons, Nat.add_sub_cancel]
  have hmlt : ((y :: ys).length - 1) / 2 < (y :: ys).length := by
    simp only [List.length_cons]
    omega
  rw [hm, List.getD_eq_getElem _ _ hmlt, List.getD_eq_getElem _ _ hmlt]

/-- Splitting a slice of the sorted list at the Builder's `mid` index turns
its mid-first tree into a node whose subtrees are the mid-first trees of the
two sub-slices that the Builder recurses on. -/
theorem midBuild_slice_split (elements : List (K × I)) {start stop : Int} {key : K} {item : I}
    (hs : 0 ≤ start) (hse : ¬ start > stop) (hstop : stop < (elements.length : Int))
    (hget : elements.get? ((start + stop) / 2).toNat = some (key, item)) :
    midBuild ((elements.drop start.toNat).take (stop + 1 - start).toNat)
      = Tree.node
          (midBuild ((elements.drop start.toNat).take
            ((start + stop) / 2 - 1 + 1 - start).toNat))
          key item
          (midBuild ((elements.drop ((start + stop) / 2 + 1).toNat).take
            (stop + 1 - ((start + stop) / 2 + 1)).toNat)) := by
  have hmlen : ((start + stop) / 2).toNat < elements.length := by omega
  have hkv : elements[((start + stop) / 2).toNat] = (key, item) := by
    rw [List.get?_eq_getElem?, List.getElem?_eq_getElem hmlen] at hget
    exact Option.some_inj.1 hget
  set s := start.toNat with hsdef
  set n := (stop + 1 - start).toNat with hndef
  have hslen : ((elements.drop s).take n).length = n := by
    simp only [List.length_take, List.length_drop]
    omega
  have hne : (elements.drop s).take n ≠ [] := by
    intro h0
    rw [h0] at hslen
    simp only [List.length_nil] at hslen
    omega
  have h1 : ((elements.drop s).take n).take ((n - 1) / 2)
      = (elements.drop s).take ((start + stop) / 2 - 1 + 1 - start).toNat := by
    rw [List.take_take]
    congr 1
    omega
  have hmS : (n - 1) / 2 < ((elements.drop s).take n).length := by
    rw [hslen]
    omega
  have h2 : ((elements.drop s).take n).getD ((n - 1) / 2) (key, item) = (key, item) := by
    rw [List.getD_eq_getElem _ _ hmS, List.getElem_take, List.getElem_drop]
    have hidx : s + (n - 1) / 2 = ((start + stop) / 2).toNat := by omega
    simp only [hidx]
    exact hkv
  have h3 : ((elements.drop s).take n).drop ((n - 1) / 2 + 1)
      = (elements.drop ((start + stop) / 2 + 1).toNat).take
          (stop + 1 - ((start + stop) / 2 + 1)).toNat := by
    rw [List.drop_take, List.drop_drop]
    congr 1
    · omega
    · congr 1
      omega
  rw [midBuild_ne_nil _ hne (key, item), hslen, h1, h2, h3]

/-- On a key-sorted list, the Builder's sequential-insertion recursion over a
valid range `[start, stop]`, started on an empty tree, succeeds and produces
exactly the mid-first tree of that slice of the list. -/
theorem build_subtree_aux_leaf_eq (elements : List (K × I))
    (hsorted : (elements.map Prod.fst).Sorted (· < ·)) :
    ∀ start stop : Int, 0 ≤ start → stop < (elements.length : Int) →
      build_subtree_aux elements Tree.leaf start stop
        = some (midBuild ((elements.drop start.toNat).take (stop + 1 - start).toNat)) := by
  intro start stop hs hstop
  have hpair : ∀ (i j : Nat) (hi : i < elements.length) (hj : j < elements.length),
      i < j → (elements[i]).1 < (elements[j]).1 := fun i j hi hj hij =>
    List.pairwise_iff_getElem.1 (List.pairwise_map.1 hsorted) i j hi hj hij
  by_cases hse : start > stop
  · rw [build_subtree_aux_base _ _ hse]
    have h0 : (stop + 1 - start).toNat = 0 := by omega
    rw [h0]
    simp [midBuild]
  · have hm1 : start ≤ (start + stop) / 2 := by omega
    have hm2 : (start + stop) / 2 ≤ stop := by omega
    have hmlen : ((start + stop) / 2).toNat < elements.length := by omega
    have hget : elements.get? ((start + stop) / 2).toNat
        = some (elements[((start + stop) / 2).toNat].1,
            elements[((start + stop) / 2).toNat].2) := by
      rw [List.get?_eq_getElem?, List.getElem?_eq_getElem hmlen]
    have hlt : ∀ i : Nat, start ≤ (i : Int) → (i : Int) ≤ (start + stop) / 2 - 1 →
        ∀ p ∈ elements.get? i, p.1 < elements[((start + stop) / 2).toNat].1 := by
      intro i h1 h2 p hp
      have hi : i < elements.length := by omega
      rw [List.get?_eq_getElem?, List.getElem?_eq_getElem hi, Option.mem_def] at hp
      have hpe : p = elements[i] := (Option.some_inj.1 hp).symm
      rw [hpe]
      exact hpair i ((start + stop) / 2).toNat hi hmlen (by omega)
    have hgt : ∀ i : Nat, (start + stop) / 2 + 1 ≤ (i : Int) → (i : Int) ≤ stop →
        ∀ p ∈ elements.get? i, elements[((start + stop) / 2).toNat].1 < p.1 := by
      intro i h1 h2 p hp
      have hi : i < elements.length := by omega
      rw [List.get?_eq_getElem?, List.getElem?_eq_getElem hi, Option.mem_def] at hp
      have hpe : p = elements[i] := (Option.some_inj.1 hp).symm
      rw [hpe]
      exact hpair ((start + stop) / 2).toNat i hmlen hi (by omega)
    have hsi : (Tree.leaf : Tree K I).setItem elements[((start + stop) / 2).toNat].1
        elements[((start + stop) / 2).toNat].2
        = Tree.node Tree.leaf elements[((start + stop) / 2).toNat].1
            elements[((start + stop) / 2).toNat].2 Tree.leaf := rfl
    rw [build_subtree_aux_step _ _ hse hget, hsi]
    rw [build_frame_lt elements Tree.leaf _ _ Tree.leaf start ((start + stop) / 2 - 1) hs hlt]
    rw [build_subtree_aux_leaf_eq elements hsorted start ((start + stop) / 2 - 1) hs (by omega)]
    simp only [Option.map_some', Option.some_bind]
    rw [build_frame_gt elements _ _ _ Tree.leaf ((start + stop) / 2 + 1) stop (by omega) hgt]
    rw [build_subtree_aux_leaf_eq elements hsorted ((start + stop) / 2 + 1) stop
      (by omega) (by omega)]
    simp only [Option.map_some']
    rw [midBuild_slice_split elements hs hse hstop hget]
termination_by start stop => (stop + 1 - start).toNat
decreasing_by all_goals omega

/-- Frame lemma for the swapped variant: a batch of keys all smaller than
`k` only rebuilds the left subtree. -/
theorem build_swapped_frame_lt (elements : List (K × I)) (R : Tree K I) (k : K) (v : I) :
    ∀ (L : Tree K I) (start stop : Int), 0 ≤ start →
      (∀ i : Nat, start ≤ (i : Int) → (i : Int) ≤ stop →
        ∀ p ∈ elements.get? i, p.1 < k) →
      build_subtree_aux_swapped elements (Tree.node L k v R) start stop
        = (build_subtree_aux_swapped elements L start stop).map
            (fun L' => Tree.node L' k v R) := by
  intro L start stop hs h
  by_cases hse : start > stop
  · rw [build_subtree_aux_swapped_base _ _ hse, build_subtree_aux_swapped_base _ _ hse]
    rfl
  · cases hg : elements.get? ((start + stop) / 2).toNat with
    | none =>
      rw [build_subtree_aux_swapped_oob _ _ hse hg, build_subtree_aux_swapped_oob _ _ hse hg]
      rfl
    | some p =>
      obtain ⟨key, item⟩ := p
      have hklt : key < k := by
        refine h ((start + stop) / 2).toNat (by omega) (by omega) (key, item) ?_
        rw [hg]
        rfl
      rw [build_subtree_aux_swapped_step _ _ hse hg, build_subtree_aux_swapped_step _ _ hse hg,
        setItem_lt item hklt]
      rw [build_swapped_frame_lt elements R k v (L.setItem key item) ((start + stop) / 2 + 1)
        stop (by omega) (fun i h1 h2 p hp => h i (by omega) h2 p hp)]
      cases hL : build_subtree_aux_swapped elements (L.setItem key item)
        ((start + stop) / 2 + 1) stop with
      | none => rfl
      | some L' =>
        simp only [Option.map_some', Option.some_bind]
        exact build_swapped_frame_lt elements R k v L' start ((start + stop) / 2 - 1) hs
          (fun i h1 h2 p hp => h i h1 (by omega) p hp)
termination_by L start stop => (stop + 1 - start).toNat
decreasing_by all_goals omega

/-- Frame lemma for the swapped variant: a batch of keys all greater than
`k` only rebuilds the right subtree. -/
theorem build_swapped_frame_gt (elements : List (K × I)) (L : Tree K I) (k : K) (v : I) :
    ∀ (R : Tree K I) (start stop : Int), 0 ≤ start →
      (∀ i : Nat, start ≤ (i : Int) → (i : Int) ≤ stop →
        ∀ p ∈ elements.get? i, k < p.1) →
      build_subtree_aux_swapped elements (Tree.node L k v R) start stop
        = (build_subtree_aux_swapped elements R start stop).map
            (fun R' => Tree.node L k v R') := by
  intro R start stop hs h
  by_cases hse : start > stop
  · rw [build_subtree_aux_swapped_base _ _ hse, build_subtree_aux_swapped_base _ _ hse]
    rfl
  · cases hg : elements.get? ((start + stop) / 2).toNat with
    | none =>
      rw [build_subtree_aux_swapped_oob _ _ hse hg, build_subtree_aux_swapped_oob _ _ hse hg]
      rfl
    | some p =>
      obtain ⟨key, item⟩ := p
      have hkgt : k < key := by
        refine h ((start + stop) / 2).toNat (by omega) (by omega) (key, item) ?_
        rw [hg]
        rfl
      rw [build_subtree_aux_swapped_step _ _ hse hg, build_subtree_aux_swapped_step _ _ hse hg,
        setItem_gt item hkgt]
      rw [build_swapped_frame_gt elements L k v (R.setItem key item) ((start + stop) / 2 + 1)
        stop (by omega) (fun i h1 h2 p hp => h i (by omega) h2 p hp)]
      cases hR : build_subtree_aux_swapped elements (R.setItem key item)
        ((start + stop) / 2 + 1) stop with
      | none => rfl
      | some R' =>
        simp only [Option.map_some', Option.some_bind]
        exact build_swapped_frame_gt elements L k v R' start ((start + stop) / 2 - 1) hs
          (fun i h1 h2 p hp => h i h1 (by omega) p hp)
termination_by R start stop => (stop + 1 - start).toNat
decreasing_by all_goals omega

/-- The swapped variant also realises the mid-first tree on a key-sorted
list, over any valid range. -/
theorem build_subtree_aux_swapped_leaf_eq (elements : List (K × I))
    (hsorted : (elements.map Prod.fst).Sorted (· < ·)) :
    ∀ start stop : Int, 0 ≤ start → stop < (elements.length : Int) →
      build_subtree_aux_swapped elements Tree.leaf start stop
        = some (midBuild ((elements.drop start.toNat).take (stop + 1 - start).toNat)) := by
  intro start stop hs hstop
  have hpair : ∀ (i j : Nat) (hi : i < elements.length) (hj : j < elements.length),
      i < j → (elements[i]).1 < (elements[j]).1 := fun i j hi hj hij =>
    List.pairwise_iff_getElem.1 (List.pairwise_map.1 hsorted) i j hi hj hij
  by_cases hse : start > stop
  · rw [build_subtree_aux_swapped_base _ _ hse]
    have h0 : (stop + 1 - start).toNat = 0 := by omega
    rw [h0]
    simp [midBuild]
  · have hm1 : start ≤ (start + stop) / 2 := by omega
    have hm2 : (start + stop) / 2 ≤ stop := by omega
    have hmlen : ((start + stop) / 2).toNat < elements.length := by omega
    have hget : elements.get? ((start + stop) / 2).toNat
        = some (elements[((start + stop) / 2).toNat].1,
            elements[((start + stop) / 2).toNat].2) := by
      rw [List.get?_eq_getElem?, List.getElem?_eq_getElem hmlen]
    have hlt : ∀ i : Nat, start ≤ (i : Int) → (i : Int) ≤ (start + stop) / 2 - 1 →
        ∀ p ∈ elements.get? i, p.1 < elements[((start + stop) / 2).toNat].1 := by
      intro i h1 h2 p hp
      have hi : i < elements.length := by omega
      rw [List.get?_eq_getElem?, List.getElem?_eq_getElem hi, Option.mem_def] at hp
      have hpe : p = elements[i] := (Option.some_inj.1 hp).symm
      rw [hpe]
      exact hpair i ((start + stop) / 2).toNat hi hmlen (by omega)
    have hgt : ∀ i : Nat, (start + stop) / 2 + 1 ≤ (i : Int) → (i : Int) ≤ stop →
        ∀ p ∈ elements.get? i, elements[((start + stop) / 2).toNat].1 < p.1 := by
      intro i h1 h2 p hp
      have hi : i < elements.length := by omega
      rw [List.get?_eq_getElem?, List.getElem?_eq_getElem hi, Option.mem_def] at hp
      have hpe : p = elements[i] := (Option.some_inj.1 hp).symm
      rw [hpe]
      exact hpair ((start + stop) / 2).toNat i hmlen hi (by omega)
    have hsi : (Tree.leaf : Tree K I).setItem elements[((start + stop) / 2).toNat].1
        elements[((start + stop) / 2).toNat].2
        = Tree.node Tree.leaf elements[((start + stop) / 2).toNat].1
            elements[((start + stop) / 2).toNat].2 Tree.leaf := rfl
    rw [build_subtree_aux_swapped_step _ _ hse hget, hsi]
    rw [build_swapped_frame_gt elements Tree.leaf _ _ Tree.leaf ((start + stop) / 2 + 1) stop
      (by omega) hgt]
    rw [build_subtree_aux_swapped_leaf_eq elements hsorted ((start + stop) / 2 + 1) stop
      (by omega) (by omega)]
    simp only [Option.map_some', Option.some_bind]
    rw [build_swapped_frame_lt elements _ _ _ Tree.leaf start ((start + stop) / 2 - 1) hs hlt]
    rw [build_subtree_aux_swapped_leaf_eq elements hsorted start ((start + stop) / 2 - 1) hs
      (by omega)]
    simp only [Option.map_some']
    rw [midBuild_slice_split elements hs hse hstop hget]
termination_by start stop => (stop + 1 - start).toNat
decreasing_by all_goals omega

/-! ### Top-level corollaries about the Builder -/

theorem sort_elements_le_sorted (l : List (K × I)) :
    ((sort_elements l).map Prod.fst).Sorted (· ≤ ·) := by
  rw [List.Sorted, List.pairwise_map]
  have h := @List.sorted_mergeSort (K × I)
    (fun a b : K × I => decide (a.1 ≤ b.1))
    (fun a b c hab hbc => by
      simp only [decide_eq_true_eq] at hab hbc ⊢
      exact le_trans hab hbc)
    (fun a b => by
      simp only [Bool.or_eq_true, decide_eq_true_eq]
      exact le_total a.1 b.1)
    l
  exact h.imp (fun hab => by simpa using hab)

theorem sort_elements_perm (l : List (K × I)) : (sort_elements l).Perm l :=
  List.mergeSort_perm l _

theorem sort_elements_length (l : List (K × I)) :
    (sort_elements l).length = l.length :=
  (sort_elements_perm l).length_eq

theorem sort_elements_sorted_keys (l : List (K × I)) (hnd : (l.map Prod.fst).Nodup) :
    ((sort_elements l).map Prod.fst).Sorted (· < ·) := by
  have hle := sort_elements_le_sorted l
  have hnd' : ((sort_elements l).map Prod.fst).Nodup :=
    (((sort_elements_perm l).map Prod.fst).symm).nodup hnd
  exact ((hle.and hnd').imp fun hab => lt_of_le_of_ne hab.1 hab.2 : _)

/-- The concrete constructor: on any input whose keys are pairwise distinct,
`BetterBST.__init__` succeeds and its tree is the mid-first tree of the
sorted input. -/
theorem betterBST_init_eq_midBuild (l : List (K × I)) (hnd : (l.map Prod.fst).Nodup) :
    betterBST_init l = some (midBuild (sort_elements l)) := by
  rw [betterBST_init, build_balanced_tree]
  rw [build_subtree_aux_leaf_eq (sort_elements l) (sort_elements_sorted_keys l hnd) 0
    (((sort_elements l).length : Int) - 1) le_rfl (by omega)]
  congr 1
  have hlen : (((sort_elements l).length : Int) - 1 + 1 - 0).toNat
      = (sort_elements l).length := by omega
  have h0 : ((0 : Int)).toNat = 0 := rfl
  rw [hlen, h0, List.drop_zero, List.take_length]

/-- On a distinct-key input, the swapped-recursion variant builds exactly
the same tree as the implemented order, over the Builder's full range. -/
theorem build_swapped_eq_build (elements : List (K × I))
    (hsorted : (elements.map Prod.fst).Sorted (· < ·)) :
    build_subtree_aux_swapped elements Tree.leaf 0 ((elements.length : Int) - 1)
      = build_subtree_aux elements Tree.leaf 0 ((elements.length : Int) - 1) := by
  rw [build_subtree_aux_swapped_leaf_eq elements hsorted 0 ((elements.length : Int) - 1)
    le_rfl (by omega),
    build_subtree_aux_leaf_eq elements hsorted 0 ((elements.length : Int) - 1)
    le_rfl (by omega)]

end BetterBST

/-! ### The Minecraft domain objects (`minecraft_block.py`) -/

/-- Embedding of `MinecraftItem`: a name, a description and an integer
value.  Equality in the source compares names only; the Lean structure
equality is finer, which only strengthens statements of unchanged state. -/
structure MinecraftItem where
  name : String
  description : String
  value : Int
deriving DecidableEq

/-- Embedding of `MinecraftBlock`: a name, a description, an integer
hardness and the contained item. -/
structure MinecraftBlock where
  name : String
  description : String
  hardness : Int
  item : MinecraftItem
deriving DecidableEq

/-- Embedding of `MinecraftBlock.ratio`: the value-to-hardness ratio
`self.item.value / self.hardness`, rendered over exact rationals (Python
computes it in floating point; the claims below depend only on the ordering
of ratios, not on rounding). -/
def MinecraftBlock.ratio (b : MinecraftBlock) : ℚ :=
  (b.item.value : ℚ) / (b.hardness : ℚ)

namespace MinecraftChecklist

/-- The state of a `MinecraftChecklist`: its `self.checklist` BetterBST,
keyed by block ratio. -/
abbrev Checklist := Tree ℚ MinecraftBlock

/-- Embedding of `MinecraftChecklist.add_block`: insert the block keyed by
its ratio, unless the ratio key is already present (`key not in
self.checklist`, the substrate's key membership test). -/
def add_block (checklist : Checklist) (block : MinecraftBlock) : Checklist :=
  let key := block.ratio
  if checklist.containsKey key then checklist
  else checklist.setItem key block

/-- Embedding of `MinecraftChecklist.get_optimal_blocks`: bounds are the min
and max of the two blocks' ratios; filter the BetterBST with the two strict
predicates and copy out the blocks (second components) in order. -/
def get_optimal_blocks (checklist : Checklist) (block1 block2 : MinecraftBlock) :
    List MinecraftBlock :=
  let lower := min block1.ratio block2.ratio
  let upper := max block1.ratio block2.ratio
  let filtered := BetterBST.filter_keys checklist
    (fun k => decide (k > lower)) (fun k => decide (k < upper))
  filtered.map Prod.snd

end MinecraftChecklist

namespace BetterBST

variable {K I : Type} [LinearOrder K]

/-- A lower predicate that is false on every key yields an empty result,
whatever the upper predicate and the tree. -/
theorem filter_keys_false {f1 fz : K → Bool} (h : ∀ k, f1 k = false) (t : Tree K I) :
    filter_keys t f1 fz = [] := by
  induction t with
  | leaf => rfl
  | node l k v r ihl ihr =>
    rw [filter_keys_node]
    simp [h, ihr]

/-- Predicates that are true on every key yield the full in-order
traversal. -/
theorem filter_keys_true {f1 f2 : K → Bool} (h1 : ∀ k, f1 k = true) (h2 : ∀ k, f2 k = true)
    (t : Tree K I) : filter_keys t f1 f2 = t.inorder := by
  induction t with
  | leaf => rfl
  | node l k v r ihl ihr =>
    rw [filter_keys_node, Tree.inorder]
    simp [h1, h2, ihl, ihr]

end BetterBST

/-- The substrate's key-membership test agrees with semantic key membership
on every tree satisfying the BST invariant. -/
theorem containsKey_iff_mem_keys {K I : Type} [LinearOrder K] {t : Tree K I} (hbst : t.isBST)
    (k : K) : t.containsKey k = true ↔ k ∈ t.keys := by
  induction t with
  | leaf => simp [Tree.containsKey, Tree.keys, Tree.inorder]
  | node l key v r ihl ihr =>
    obtain ⟨hl, hr, bl, br⟩ := hbst
    simp only [Tree.containsKey, BetterBST.keys_node, List.mem_append, List.mem_cons]
    by_cases h1 : k < key
    · rw [if_pos h1, ihl bl]
      constructor
      · intro h
        exact Or.inl h
      · rintro (h | h | h)
        · exact h
        · exact absurd h1 (by rw [h]; exact lt_irrefl key)
        · exact absurd (hr k h) (not_lt.2 h1.le)
    · by_cases h2 : key < k
      · rw [if_neg h1, if_pos h2, ihr br]
        constructor
        · intro h
          exact Or.inr (Or.inr h)
        · rintro (h | h | h)
          · exact absurd (hl k h) (not_lt.2 h2.le)
          · exact absurd h2 (by rw [h]; exact lt_irrefl key)
          · exact h
      · have hk : k = key := le_antisymm (not_lt.1 h2) (not_lt.1 h1)
        rw [if_neg h1, if_neg h2]
        simp [hk]

/-! ### Concrete instances used by the witnesses -/

/-- The spec's concrete scenario input for the Builder. -/
def exElements : List (Int × String) := [(5, "e"), (1, "a"), (3, "c"), (2, "b"), (4, "d")]

/-- The tree the Builder actually produces from `exElements`: root 3, key 1
with right child 2 on the left, key 4 with right child 5 on the right. -/
def exTree : Tree Int String :=
  Tree.node (Tree.node Tree.leaf 1 "a" (Tree.node Tree.leaf 2 "b" Tree.leaf)) 3 "c"
    (Tree.node Tree.leaf 4 "d" (Tree.node Tree.leaf 5 "e" Tree.leaf))

/-- A sorted five-element input, for the recursion-order equivalence. -/
def sortedExElements : List (Int × String) :=
  [(1, "a"), (2, "b"), (3, "c"), (4, "d"), (5, "e")]

/-- A concrete item and block for the checklist claims. -/
def exItem : MinecraftItem := { name := "pebble", description := "p", value := 3 }

/-- A concrete block whose ratio keys the example checklist. -/
def exBlock : MinecraftBlock := { name := "stone", description := "s", hardness := 2, item := exItem }

/-- A one-entry checklist already containing `exBlock` under its ratio. -/
def exChecklist : MinecraftChecklist.Checklist :=
  Tree.node Tree.leaf exBlock.ratio exBlock Tree.leaf

/-! ### The claims -/

/-- Claim C1: for every tree built by the Builder (from input with distinct
keys) and every pair of predicates where the lower predicate is monotone
non-decreasing and the upper predicate is monotone non-increasing over the
key order, `filter_keys` returns exactly the entries of the tree's full
in-order traversal for which both predicates hold, as a subsequence in
ascending key order. -/
theorem C1_filter_matches_bruteforce {K I : Type} [LinearOrder K] (l : List (K × I))
    (hnd : (l.map Prod.fst).Nodup) (T : Tree K I)
    (hT : BetterBST.betterBST_init l = some T)
    (f1 f2 : K → Bool)
    (h1 : ∀ a b : K, a ≤ b → f1 a = true → f1 b = true)
    (h2 : ∀ a b : K, a ≤ b → f2 b = true → f2 a = true) :
    BetterBST.filter_keys T f1 f2 = T.inorder.filter (fun p => f1 p.1 && f2 p.1)
    ∧ ((BetterBST.filter_keys T f1 f2).map Prod.fst).Sorted (· < ·) := by
  have hTm : T = BetterBST.midBuild (BetterBST.sort_elements l) := by
    have h := BetterBST.betterBST_init_eq_midBuild l hnd
    rw [hT] at h
    exact Option.some_inj.1 h
  have hbst : T.isBST := by
    rw [hTm]
    exact BetterBST.isBST_midBuild (BetterBST.sort_elements_sorted_keys l hnd)
  refine ⟨BetterBST.filter_keys_eq_filter_inorder hbst h1 h2, ?_⟩
  exact List.Pairwise.sublist ((BetterBST.filter_keys_sublist_inorder f1 f2 T).map Prod.fst)
    (BetterBST.sorted_keys_of_isBST hbst)

unseal List.merge List.mergeSort BetterBST.build_subtree_aux in
theorem C1_filter_matches_bruteforce_witness :
    BetterBST.filter_keys exTree (fun k => decide (1 < k)) (fun k => decide (k < 5))
        = exTree.inorder.filter (fun p => decide (1 < p.1) && decide (p.1 < 5))
    ∧ ((BetterBST.filter_keys exTree (fun k => decide (1 < k))
        (fun k => decide (k < 5))).map Prod.fst).Sorted (· < ·) :=
  C1_filter_matches_bruteforce exElements (by decide) exTree (by decide)
    (fun k => decide (1 < k)) (fun k => decide (k < 5))
    (fun a b hab ha => by
      simp only [decide_eq_true_eq] at ha ⊢
      omega)
    (fun a b hab hb => by
      simp only [decide_eq_true_eq] at hb ⊢
      omega)

/-- Claim C2: for every non-empty input with distinct keys, the in-order
traversal of the tree built by `BetterBST(elements)` is a permutation of the
input whose keys are strictly ascending — i.e. exactly the input pairs
sorted ascending by key, with nothing added or lost. -/
theorem C2_roundtrip {K I : Type} [LinearOrder K] (l : List (K × I))
    (hne : l ≠ []) (hnd : (l.map Prod.fst).Nodup) :
    ∃ T : Tree K I, BetterBST.betterBST_init l = some T
      ∧ T.inorder.Perm l
      ∧ (T.inorder.map Prod.fst).Sorted (· < ·) := by
  refine ⟨BetterBST.midBuild (BetterBST.sort_elements l),
    BetterBST.betterBST_init_eq_midBuild l hnd, ?_, ?_⟩
  · rw [BetterBST.inorder_midBuild]
    exact BetterBST.sort_elements_perm l
  · rw [BetterBST.inorder_midBuild]
    exact BetterBST.sort_elements_sorted_keys l hnd

theorem C2_roundtrip_witness :
    ∃ T : Tree Int String, BetterBST.betterBST_init exElements = some T
      ∧ T.inorder.Perm exElements
      ∧ (T.inorder.map Prod.fst).Sorted (· < ·) :=
  C2_roundtrip exElements (by decide) (by decide)

/-- Claim C3: for every non-empty input of n distinct keys, the Builder's
tree has height exactly ⌈log2(n+1)⌉, rendered as `Nat.clog 2 (n + 1)`
(height in levels: a single node has height 1). -/
theorem C3_balanced_height {K I : Type} [LinearOrder K] (l : List (K × I))
    (hne : l ≠ []) (hnd : (l.map Prod.fst).Nodup) :
    ∃ T : Tree K I, BetterBST.betterBST_init l = some T
      ∧ T.height = Nat.clog 2 (l.length + 1) := by
  refine ⟨BetterBST.midBuild (BetterBST.sort_elements l),
    BetterBST.betterBST_init_eq_midBuild l hnd, ?_⟩
  rw [BetterBST.height_midBuild, BetterBST.sort_elements_length]

theorem C3_balanced_height_witness :
    ∃ T : Tree Int String, BetterBST.betterBST_init exElements = some T
      ∧ T.height = Nat.clog 2 (exElements.length + 1) :=
  C3_balanced_height exElements (by decide) (by decide)

unseal List.merge List.mergeSort BetterBST.build_insert_order in
/-- Claim C4 (counterexample): on the concrete scenario input the Builder
does NOT insert the sorted keys in the order [3, 1, 2, 5, 4]; the range
[3, 4] takes mid = (3+4)//2 = 3, so key 4 is inserted before key 5. -/
theorem C4_scenario_counterexample :
    BetterBST.build_insert_order (BetterBST.sort_elements exElements) 0
        (((BetterBST.sort_elements exElements).length : Int) - 1)
      ≠ some [3, 1, 2, 5, 4] := by
  decide

unseal List.merge List.mergeSort BetterBST.build_subtree_aux
  BetterBST.build_insert_order in
/-- Claim C4 (amended): on input `exElements` the Builder sorts the keys to
[1,2,3,4,5], inserts them in the order [3, 1, 2, 4, 5], the resulting tree's
in-order traversal yields the five pairs ascending, and `filter_keys` with
predicates k > 1 and k < 5 yields [(2,"b"), (3,"c"), (4,"d")]. -/
theorem C4_scenario_amended :
    BetterBST.sort_elements exElements
        = [(1, "a"), (2, "b"), (3, "c"), (4, "d"), (5, "e")]
    ∧ BetterBST.build_insert_order (BetterBST.sort_elements exElements) 0
        (((BetterBST.sort_elements exElements).length : Int) - 1) = some [3, 1, 2, 4, 5]
    ∧ BetterBST.betterBST_init exElements = some exTree
    ∧ exTree.inorder = [(1, "a"), (2, "b"), (3, "c"), (4, "d"), (5, "e")]
    ∧ BetterBST.filter_keys exTree (fun k => decide (k > 1)) (fun k => decide (k < 5))
        = [(2, "b"), (3, "c"), (4, "d")] := by
  decide

unseal List.merge List.mergeSort BetterBST.build_subtree_aux in
/-- Claim C5 (counterexample): constructing a BetterBST from an empty
elements sequence does not fail — with the sort total on its input (as the
spec itself assumes), the build recursion's `start > end` base case returns
immediately and the constructor silently produces an empty tree. -/
theorem C5_empty_input_counterexample :
    BetterBST.betterBST_init ([] : List (Int × String)) = some Tree.leaf := by
  decide

/-- Claim C5 (amended): for every key and item type, empty input is handled
gracefully: the constructor returns the empty tree and signals no error.
Non-emptiness is only a documented assumption of `__init__`. -/
theorem C5_empty_input_graceful (K I : Type) [LinearOrder K] :
    BetterBST.betterBST_init ([] : List (K × I)) = some Tree.leaf := by
  rw [BetterBST.betterBST_init, BetterBST.sort_elements, List.mergeSort_nil,
    BetterBST.build_balanced_tree]
  rw [BetterBST.build_subtree_aux_base]
  simp only [List.length_nil, Nat.cast_zero]
  norm_num

/-- Claim C6: on a sorted input sequence (of distinct keys, the Builder's
contract), swapping the order of the two recursive calls — building
[mid+1, end] before [start, mid-1] — produces exactly the same final tree as
the implemented left-then-right order. -/
theorem C6_recursion_order_irrelevant {K I : Type} [LinearOrder K]
    (elements : List (K × I)) (hsorted : (elements.map Prod.fst).Sorted (· < ·)) :
    BetterBST.build_subtree_aux_swapped elements Tree.leaf 0 ((elements.length : Int) - 1)
      = BetterBST.build_subtree_aux elements Tree.leaf 0 ((elements.length : Int) - 1) :=
  BetterBST.build_swapped_eq_build elements hsorted

theorem C6_recursion_order_irrelevant_witness :
    BetterBST.build_subtree_aux_swapped sortedExElements Tree.leaf 0
        ((sortedExElements.length : Int) - 1)
      = BetterBST.build_subtree_aux sortedExElements Tree.leaf 0
        ((sortedExElements.length : Int) - 1) :=
  C6_recursion_order_irrelevant sortedExElements (by decide)

/-- Claim C7: on every tree built by the Builder, a lower predicate that is
false for every key yields an empty result; both predicates true for every
key yield the full in-order traversal; and monotone predicates delimiting a
range matching exactly one entry yield exactly that singleton. -/
theorem C7_filter_boundary_cases {K I : Type} [LinearOrder K] (l : List (K × I))
    (hnd : (l.map Prod.fst).Nodup) (T : Tree K I)
    (hT : BetterBST.betterBST_init l = some T)
    (f0 fz ft1 ft2 f1 f2 : K → Bool)
    (h0 : ∀ k, f0 k = false)
    (ht1 : ∀ k, ft1 k = true) (ht2 : ∀ k, ft2 k = true)
    (h1 : ∀ a b : K, a ≤ b → f1 a = true → f1 b = true)
    (h2 : ∀ a b : K, a ≤ b → f2 b = true → f2 a = true)
    (k0 : K) (v0 : I)
    (hsingle : T.inorder.filter (fun p => f1 p.1 && f2 p.1) = [(k0, v0)]) :
    BetterBST.filter_keys T f0 fz = []
    ∧ BetterBST.filter_keys T ft1 ft2 = T.inorder
    ∧ BetterBST.filter_keys T f1 f2 = [(k0, v0)] := by
  have hTm : T = BetterBST.midBuild (BetterBST.sort_elements l) := by
    have h := BetterBST.betterBST_init_eq_midBuild l hnd
    rw [hT] at h
    exact Option.some_inj.1 h
  have hbst : T.isBST := by
    rw [hTm]
    exact BetterBST.isBST_midBuild (BetterBST.sort_elements_sorted_keys l hnd)
  refine ⟨BetterBST.filter_keys_false h0 T, BetterBST.filter_keys_true ht1 ht2 T, ?_⟩
  rw [BetterBST.filter_keys_eq_filter_inorder hbst h1 h2, hsingle]

unseal List.merge List.mergeSort BetterBST.build_subtree_aux in
theorem C7_filter_boundary_cases_witness :
    BetterBST.filter_keys exTree (fun _ => false) (fun _ => true) = []
    ∧ BetterBST.filter_keys exTree (fun _ => true) (fun _ => true) = exTree.inorder
    ∧ BetterBST.filter_keys exTree (fun k => decide (3 < k)) (fun k => decide (k < 5))
        = [(4, "d")] :=
  C7_filter_boundary_cases exElements (by decide) exTree (by decide)
    (fun _ => false) (fun _ => true) (fun _ => true) (fun _ => true)
    (fun k => decide (3 < k)) (fun k => decide (k < 5))
    (fun _ => rfl) (fun _ => rfl) (fun _ => rfl)
    (fun a b hab ha => by
      simp only [decide_eq_true_eq] at ha ⊢
      omega)
    (fun a b hab hb => by
      simp only [decide_eq_true_eq] at hb ⊢
      omega)
    4 "d" (by decide)

/-- Claim C8: on every tree satisfying the BST invariant (every tree of this
program) and for arbitrary, not necessarily monotone, predicates: every
entry of the filter result satisfies both predicates, and the result's keys
are strictly ascending.  (Non-monotone predicates can thus only drop
qualifying entries, never include non-qualifying ones or break order.) -/
theorem C8_filter_sound_for_arbitrary_preds {K I : Type} [LinearOrder K]
    (T : Tree K I) (hbst : T.isBST) (f1 f2 : K → Bool) :
    (∀ p ∈ BetterBST.filter_keys T f1 f2, f1 p.1 = true ∧ f2 p.1 = true)
    ∧ ((BetterBST.filter_keys T f1 f2).map Prod.fst).Sorted (· < ·) :=
  ⟨fun _ hp => BetterBST.pred_of_mem_filter_keys hp,
   List.Pairwise.sublist ((BetterBST.filter_keys_sublist_inorder f1 f2 T).map Prod.fst)
     (BetterBST.sorted_keys_of_isBST hbst)⟩

theorem C8_filter_sound_for_arbitrary_preds_witness :
    (∀ p ∈ BetterBST.filter_keys exTree (fun k => decide (k % 2 = 1))
        (fun k => decide (k ≠ 2)),
      decide (p.1 % 2 = 1) = true ∧ decide (p.1 ≠ 2) = true)
    ∧ ((BetterBST.filter_keys exTree (fun k => decide (k % 2 = 1))
        (fun k => decide (k ≠ 2))).map Prod.fst).Sorted (· < ·) :=
  C8_filter_sound_for_arbitrary_preds exTree (by decide)
    (fun k => decide (k % 2 = 1)) (fun k => decide (k ≠ 2))

/-- Claim C9: when a block's ratio key is already present in the checklist
(which satisfies the BST invariant), `add_block` leaves the checklist
completely unchanged — the stored block is not overwritten and the size does
not change. -/
theorem C9_add_block_existing_key_noop (checklist : MinecraftChecklist.Checklist)
    (hbst : checklist.isBST) (block : MinecraftBlock)
    (hmem : block.ratio ∈ checklist.keys) :
    MinecraftChecklist.add_block checklist block = checklist
    ∧ (MinecraftChecklist.add_block checklist block).size = checklist.size := by
  have hc : checklist.containsKey block.ratio = true :=
    (containsKey_iff_mem_keys hbst block.ratio).2 hmem
  have he : MinecraftChecklist.add_block checklist block = checklist := by
    rw [MinecraftChecklist.add_block]
    simp [hc]
  exact ⟨he, by rw [he]⟩

theorem C9_add_block_existing_key_noop_witness :
    MinecraftChecklist.add_block exChecklist exBlock = exChecklist
    ∧ (MinecraftChecklist.add_block exChecklist exBlock).size = exChecklist.size :=
  C9_add_block_existing_key_noop exChecklist
    (by simp [exChecklist, Tree.isBST, Tree.keys, Tree.inorder]) exBlock
    (by simp [exChecklist, Tree.keys, Tree.inorder])

/-- Claim C10: `get_optimal_blocks` is symmetric in its two block arguments:
the bounds are the min and max of the two ratios, so swapping the arguments
leaves the returned sequence unchanged. -/
theorem C10_get_optimal_blocks_symmetric (checklist : MinecraftChecklist.Checklist)
    (block1 block2 : MinecraftBlock) :
    MinecraftChecklist.get_optimal_blocks checklist block1 block2
      = MinecraftChecklist.get_optimal_blocks checklist block2 block1 := by
  simp only [MinecraftChecklist.get_optimal_blocks]
  rw [min_comm block1.ratio block2.ratio, max_comm block1.ratio block2.ratio]

end MinecraftGame
